import Mathlib

/-!
Verification of the `faridani/vibe-coding` repository's project-report
generators (`scripts/generate4LLM/generate4llm_script.py`, its
`dev-tools/generate4LLM.py` variant, and `scripts/llmcodeprep/project-to-gpt.py`)
against their natural-language specification.

Python strings are sequences of Unicode code points; we embed them as
`List Char` (`Str`).  Directory trees are embedded as the inductive `FSNode`;
the order of a directory's children list models the (arbitrary) order in which
`os.listdir` / `os.walk` / `Path.iterdir` enumerate the real directory.
Python's `sorted` / `list.sort` (a stable ascending sort) is embedded as
`List.insertionSort`, which is extensionally the same function: the unique
stable sort ascending with respect to the given order.
-/

namespace VibeCoding

/-- A Python `str`: a sequence of Unicode code points. -/
abbrev Str := List Char

/-- Code-point list of a Lean string literal. -/
def str (s : String) : Str := s.data

/-- Python `<` on strings: lexicographic comparison of code points. -/
def pyLt : Str → Str → Bool
  | [], [] => false
  | [], _ :: _ => true
  | _ :: _, [] => false
  | c :: s, d :: t => c < d || (c = d && pyLt s t)

/-- The comparison a stable ascending Python sort effectively uses:
`a` may stay before `b` iff `not (b < a)`. -/
def strSortLe (a b : Str) : Bool := !pyLt b a

/-- Python `str.startswith`. -/
def pyStartsWith (s p : Str) : Bool := p.isPrefixOf s

/-- Python `str.endswith`. -/
def pyEndsWith (s p : Str) : Bool := p.isSuffixOf s

/-- Python `str.lower`, restricted to ASCII letters (every constant in the
scripts is ASCII; full Unicode case mapping is out of scope). -/
def pyLowerChar (c : Char) : Char :=
  if 'A' ≤ c && c ≤ 'Z' then Char.ofNat (c.toNat + 32) else c

/-- Python `str.lower` on a string. -/
def pyLower (s : Str) : Str := s.map pyLowerChar

/-- POSIX `os.path.basename`: the component after the last `/`. -/
def basename (p : Str) : Str := (p.reverse.takeWhile (fun c => c ≠ '/')).reverse

/-- Join relative-path components with `/`, as `os.path.relpath` and
`os.path.join` produce on POSIX. -/
def joinRel : List Str → Str
  | [] => []
  | [c] => c
  | c :: cs => c ++ '/' :: joinRel cs

/-- Split a path string at `/` (inverse of `joinRel` on well-formed names). -/
def splitSlash : Str → List Str
  | [] => [[]]
  | c :: cs =>
    match splitSlash cs with
    | [] => [[]]
    | g :: gs => if c = '/' then [] :: g :: gs else (c :: g) :: gs

/-! ### Order facts about `pyLt` -/

theorem pyLt_irrefl : ∀ a : Str, pyLt a a = false
  | [] => rfl
  | c :: s => by simp [pyLt, pyLt_irrefl s]

theorem pyLt_trans : ∀ {a b c : Str}, pyLt a b = true → pyLt b c = true → pyLt a c = true
  | [], _ :: _, _ :: _, _, _ => rfl
  | x :: a, y :: b, z :: c, hab, hbc => by
    simp only [pyLt, Bool.or_eq_true, decide_eq_true_eq, Bool.and_eq_true] at hab hbc ⊢
    rcases hab with h1 | ⟨rfl, h1⟩
    · rcases hbc with h2 | ⟨rfl, h2⟩
      · exact Or.inl (lt_trans h1 h2)
      · exact Or.inl h1
    · rcases hbc with h2 | ⟨rfl, h2⟩
      · exact Or.inl h2
      · exact Or.inr ⟨rfl, pyLt_trans h1 h2⟩

theorem pyLt_connex : ∀ a b : Str, pyLt a b = false → pyLt b a = false → a = b
  | [], [], _, _ => rfl
  | [], _ :: _, h, _ => by simp [pyLt] at h
  | _ :: _, [], _, h => by simp [pyLt] at h
  | x :: a, y :: b, h1, h2 => by
    simp only [pyLt, Bool.or_eq_false_iff, decide_eq_false_iff_not, Bool.and_eq_false_imp,
      decide_eq_true_eq] at h1 h2
    have hxy : x = y := le_antisymm (not_lt.mp h2.1) (not_lt.mp h1.1)
    subst hxy
    exact congrArg (x :: ·) (pyLt_connex a b (h1.2 rfl) (h2.2 rfl))

theorem pyLt_asymm {a b : Str} (h : pyLt a b = true) : pyLt b a = false := by
  cases hba : pyLt b a
  · rfl
  · have := pyLt_trans h hba
    rw [pyLt_irrefl] at this
    exact absurd this Bool.false_ne_true

theorem pyLt_cases (a b : Str) : pyLt a b = true ∨ pyLt b a = true ∨ a = b := by
  cases hab : pyLt a b
  · cases hba : pyLt b a
    · exact Or.inr (Or.inr (pyLt_connex a b hab hba))
    · exact Or.inr (Or.inl rfl)
  · exact Or.inl rfl

theorem strSortLe_total (a b : Str) : strSortLe a b = true ∨ strSortLe b a = true := by
  unfold strSortLe
  cases h : pyLt b a
  · exact Or.inl rfl
  · rw [pyLt_asymm h]
    exact Or.inr rfl

theorem strSortLe_trans {a b c : Str} (h1 : strSortLe a b = true) (h2 : strSortLe b c = true) :
    strSortLe a c = true := by
  simp only [strSortLe, Bool.not_eq_true'] at h1 h2 ⊢
  cases hca : pyLt c a
  · rfl
  · exfalso
    rcases pyLt_cases a b with hab | hba | heq
    · rw [pyLt_trans hca hab] at h2
      exact Bool.noConfusion h2
    · rw [hba] at h1
      exact Bool.noConfusion h1
    · subst heq
      rw [hca] at h2
      exact Bool.noConfusion h2

theorem strSortLe_antisymm {a b : Str} (h1 : strSortLe a b = true) (h2 : strSortLe b a = true) :
    a = b := by
  simp only [strSortLe, Bool.not_eq_true'] at h1 h2
  exact pyLt_connex a b h2 h1

instance : IsTotal Str (fun a b => strSortLe a b = true) := ⟨strSortLe_total⟩

instance : IsTrans Str (fun a b => strSortLe a b = true) := ⟨fun _ _ _ => strSortLe_trans⟩

instance : IsAntisymm Str (fun a b => strSortLe a b = true) := ⟨fun _ _ => strSortLe_antisymm⟩

/-! ### Configuration constants (from `generate4llm_script.py` and the
`dev-tools/generate4LLM.py` variant; the two scripts share `include_files`
and `exclude_dirs` verbatim and differ in `exclude_files`). -/

/-- The `include_files` list. -/
def include_files : List Str :=
  [str "main.py", str "app.py", str "requirements.txt", str "README.md",
   str "config.py", str "utils.py", str "models.py", str "views.py",
   str "routes.py", str "*.js", str "*.html", str "*.css", str "*.json",
   str "*.yml", str "*.yaml", str "Dockerfile", str "docker-compose.yml",
   str ".env.example", str "package.json", str "tsconfig.json", str "*.ts",
   str "*.tsx", str "*.jsx"]

/-- The `exclude_dirs` set (identical in both generate4LLM scripts);
a Python `set` is used only through membership, so a list model is exact. -/
def exclude_dirs : List Str :=
  [str "__pycache__", str ".git", str ".vscode", str ".idea",
   str "node_modules", str ".next", str "build", str "dist",
   str ".pytest_cache", str ".coverage", str "venv", str "env", str ".env",
   str ".mypy_cache", str ".DS_Store"]

/-- The `exclude_files` set of `generate4llm_script.py`. -/
def exclude_files : List Str :=
  [str ".gitignore", str ".env", str "*.pyc", str "*.pyo", str "*.pyd",
   str ".DS_Store", str "Thumbs.db", str "*.log", str "package-lock.json",
   str "package.old.json", str "stockfish.js"]

/-- The `exclude_files` set of `dev-tools/generate4LLM.py`. -/
def exclude_files_dev : List Str :=
  [str ".gitignore", str ".env", str "*.pyc", str "*.pyo", str "*.pyd",
   str ".DS_Store", str "Thumbs.db", str "*.log", str "package-lock.json",
   str "yarn.lock"]

/-! ### Path filter -/

/-- `should_include_file` (identical in both generate4LLM scripts): the
basename of the path matches some include pattern, where a pattern starting
with `*` matches by suffix (`file_name.endswith(pattern[1:])`) and any other
pattern matches by equality. -/
def should_include_file (file_path : Str) : Bool :=
  include_files.any fun pat =>
    if pyStartsWith pat (str "*") then pyEndsWith (basename file_path) (pat.drop 1)
    else basename file_path == pat

/-- `should_exclude_from_tree` of `generate4llm_script.py`: directories are
excluded by membership in `exclude_dirs`; files by membership in
`exclude_files` or a leading dot.  (Note: membership in the Python set is
exact string equality; the `*.ext` entries are never matched by suffix.) -/
def should_exclude_from_tree (name : Str) (is_dir : Bool) : Bool :=
  if is_dir then exclude_dirs.contains name
  else exclude_files.contains name || pyStartsWith name (str ".")

/-- `should_exclude` of `dev-tools/generate4LLM.py`: membership checks only,
with no leading-dot rule for files. -/
def should_exclude (path_name : Str) (is_dir : Bool) : Bool :=
  if is_dir then exclude_dirs.contains path_name
  else exclude_files_dev.contains path_name

/-! ### Filesystem model -/

/-- Result of opening a file: its raw bytes, or an open failure with the
exception's message. -/
inductive FileData where
  | bytes (bs : List Nat)
  | openError (msg : Str)
deriving DecidableEq

/-- A directory tree.  A directory records whether listing it succeeds
(`readable = false` models `PermissionError` from `os.listdir`) and its
children in the filesystem's enumeration order. -/
inductive FSNode where
  | file (data : FileData)
  | dir (readable : Bool) (children : List (Str × FSNode))

/-- Corresponds to `os.path.isdir` on an existing entry. -/
def FSNode.isDir : FSNode → Bool
  | .file _ => false
  | .dir _ _ => true

/-! ### Content reader -/

/-- Whether a byte is a UTF-8 continuation byte. -/
def isCont (b : Nat) : Bool := 0x80 ≤ b && b < 0xC0

/-- Strict UTF-8 decoding of a byte sequence, as Python's `utf-8` codec
performs it: rejects stray continuation bytes, overlong encodings,
surrogates, and code points above `U+10FFFF`. -/
def utf8Decode : List Nat → Option (List Char)
  | [] => some []
  | b :: bs =>
    if b < 0x80 then
      (utf8Decode bs).map (fun cs => Char.ofNat b :: cs)
    else if b < 0xC2 then none
    else if b < 0xE0 then
      match bs with
      | b1 :: bs1 =>
        if isCont b1 then
          (utf8Decode bs1).map (fun cs => Char.ofNat ((b - 0xC0) * 0x40 + (b1 - 0x80)) :: cs)
        else none
      | [] => none
    else if b < 0xF0 then
      match bs with
      | b1 :: b2 :: bs2 =>
        if isCont b1 && isCont b2 && (b != 0xE0 || decide (0xA0 ≤ b1))
            && (b != 0xED || decide (b1 < 0xA0)) then
          (utf8Decode bs2).map (fun cs =>
            Char.ofNat ((b - 0xE0) * 0x1000 + (b1 - 0x80) * 0x40 + (b2 - 0x80)) :: cs)
        else none
      | _ => none
    else if b < 0xF5 then
      match bs with
      | b1 :: b2 :: b3 :: bs3 =>
        if isCont b1 && isCont b2 && isCont b3 && (b != 0xF0 || decide (0x90 ≤ b1))
            && (b != 0xF4 || decide (b1 < 0x90)) then
          (utf8Decode bs3).map (fun cs =>
            Char.ofNat ((b - 0xF0) * 0x40000 + (b1 - 0x80) * 0x1000
              + (b2 - 0x80) * 0x40 + (b3 - 0x80)) :: cs)
        else none
      | _ => none
    else none

/-- Latin-1 decoding: each byte becomes the code point of the same value.
It is total on byte sequences. -/
def latin1Decode (bs : List Nat) : List Char := bs.map Char.ofNat

/-- `read_file_content` (identical in both generate4LLM scripts): try UTF-8;
on `UnicodeDecodeError` fall back to Latin-1; if the file cannot be opened,
return a placeholder embedding the error message.  (Universal newline
translation of Python text mode is not modelled.)  The embedding is a total
function: every exception path of the source is caught and turned into a
returned string. -/
def read_file_content : FileData → Str
  | .openError e => str "[Error reading file: " ++ e ++ str "]"
  | .bytes bs =>
    match utf8Decode bs with
    | some cs => cs
    | none => latin1Decode bs

/-! ### Tree renderer (`generate_tree`)

Both scripts sort the non-excluded children with
`items.sort(key=lambda x: (not is_dir, name.lower()))` — a stable ascending
sort by the tuple key — and emit one line per child, recursing into
subdirectories with depth `current_depth + 1`.  We parametrise over the
exclusion predicate, which is the only difference between the two scripts'
`generate_tree` functions. -/

/-- The Python sort key `(not x[1], x[0].lower())` of a child entry. -/
def treeKey (e : Str × FSNode) : Bool × Str := (!e.2.isDir, pyLower e.1)

/-- Python `<` on `bool`: `False < True`. -/
def boolLt (a b : Bool) : Bool := !a && b

/-- Python `<` on `(bool, str)` tuples: lexicographic. -/
def keyLt (k1 k2 : Bool × Str) : Bool :=
  boolLt k1.1 k2.1 || (k1.1 == k2.1 && pyLt k1.2 k2.2)

/-- The comparison of the stable ascending sort by `treeKey`. -/
def treeSortLe (e1 e2 : Str × FSNode) : Bool := !keyLt (treeKey e2) (treeKey e1)

/-- The filtered, sorted child list `items` that `generate_tree` iterates:
excluded entries are skipped while listing, then the rest is stably sorted
by `(not is_dir, name.lower())`. -/
def treeItems (excl : Str → Bool → Bool) (children : List (Str × FSNode)) :
    List (Str × FSNode) :=
  List.insertionSort (fun e1 e2 => treeSortLe e1 e2 = true)
    (children.filter fun e => !excl e.1 e.2.isDir)

/-- The body of `generate_tree`'s `for i, item in enumerate(items)` loop:
one line `prefix + symbol + name + "\n"` per entry (`└── ` for the last
entry, `├── ` otherwise) followed, for directories, by the recursive
rendering with the extended indentation. -/
def renderItems (recurse : FSNode → Str → Str) (pre : Str) :
    List (Str × FSNode) → Str
  | [] => []
  | (n, t) :: rest =>
    let isLast := rest.isEmpty
    let sym := if isLast then str "└── " else str "├── "
    let nextPre := pre ++ (if isLast then str "    " else str "│   ")
    (pre ++ sym ++ n ++ ['\n']) ++ (if t.isDir then recurse t nextPre else [])
      ++ renderItems recurse pre rest

/-- Recursion core of `generate_tree`, structurally recursive on the "gas"
`max_depth + 1 - current_depth` (the source's `current_depth > max_depth`
guard makes exactly this quantity govern the recursion; see
`generate_tree_eq`).  An unreadable directory contributes the single line
`prefix + "[Permission Denied]\n"` (the `except PermissionError` branch);
`generate_tree` is never called on plain files. -/
def gtAux (excl : Str → Bool → Bool) : Nat → FSNode → Str → Str
  | 0, _, _ => []
  | _ + 1, .file _, _ => []
  | d + 1, .dir readable children, pre =>
    if readable then renderItems (gtAux excl d) pre (treeItems excl children)
    else pre ++ str "[Permission Denied]" ++ ['\n']

/-- `generate_tree(directory, prefix, max_depth, current_depth)`; the `is_last`
parameter of `generate4llm_script.py` is unused by its body and omitted. -/
def generate_tree (excl : Str → Bool → Bool) (t : FSNode) (pre : Str)
    (max_depth current_depth : Nat) : Str :=
  gtAux excl (max_depth + 1 - current_depth) t pre

/-- The embedded `generate_tree` satisfies exactly the source's recursion:
return `""` beyond `max_depth`, otherwise list, filter, sort and emit the
children, recursing at `current_depth + 1`. -/
theorem generate_tree_eq (excl : Str → Bool → Bool) (t : FSNode) (pre : Str)
    (max_depth current_depth : Nat) :
    generate_tree excl t pre max_depth current_depth =
      if max_depth < current_depth then []
      else
        match t with
        | .file _ => []
        | .dir readable children =>
          if readable then
            renderItems (fun t' pre' => generate_tree excl t' pre' max_depth (current_depth + 1))
              pre (treeItems excl children)
          else pre ++ str "[Permission Denied]" ++ ['\n'] := by
  unfold generate_tree
  by_cases h : max_depth < current_depth
  · have h0 : max_depth + 1 - current_depth = 0 := by omega
    rw [h0, if_pos h]
    cases t <;> rfl
  · have h1 : max_depth + 1 - current_depth = (max_depth - current_depth) + 1 := by omega
    have h2 : max_depth + 1 - (current_depth + 1) = max_depth - current_depth := by omega
    rw [h1, if_neg h, h2]
    cases t <;> rfl

/-! ### File collector (`find_files_to_include` / `find_files_to_process`)

`os.walk(root_dir)` (top-down) yields, per visited directory, its file names
and its subdirectory names in enumeration order; both scripts prune
`dirs[:]` with the directory-exclusion predicate before descending, then for
each file skip it when excluded, and append `os.path.relpath(file_path,
root_dir)` when `should_include_file(file_path)` holds.  We carry the
relative path as its component list and return `(ancestors, filename)`
pairs.  An unreadable directory yields nothing (`os.walk`'s default
`onerror=None` ignores the listing error). -/

/-- The files of the currently visited directory that survive the exclusion
check and match an include pattern, in enumeration order.  `pre` is the list
of directory components from the walk root. -/
def filesOf (exclF : Str → Bool) (children : List (Str × FSNode)) (pre : List Str) :
    List (List Str × Str) :=
  children.filterMap fun e =>
    match e with
    | (n, .file _) =>
      if !exclF n && should_include_file (joinRel (pre ++ [n])) then some (pre, n) else none
    | (_, .dir _ _) => none

mutual

/-- One `os.walk` visit: the current directory's kept files, then the
recursive walk of each non-excluded subdirectory in enumeration order. -/
def walkNode (exclF exclD : Str → Bool) : FSNode → List Str → List (List Str × Str)
  | .file _, _ => []
  | .dir readable children, pre =>
    if readable then filesOf exclF children pre ++ walkList exclF exclD children pre
    else []

/-- Walk the subdirectory entries of the current directory, skipping the
pruned (excluded) ones. -/
def walkList (exclF exclD : Str → Bool) : List (Str × FSNode) → List Str → List (List Str × Str)
  | [], _ => []
  | (n, t) :: rest, pre =>
    (if t.isDir && !exclD n then walkNode exclF exclD t (pre ++ [n]) else [])
      ++ walkList exclF exclD rest pre

end

/-- The collected `(ancestor components, filename)` pairs of a whole walk. -/
def collectRel (exclF exclD : Str → Bool) (t : FSNode) : List (List Str × Str) :=
  walkNode exclF exclD t []

/-- The relative path string of a collected pair. -/
def relPathOf (e : List Str × Str) : Str := joinRel (e.1 ++ [e.2])

/-- `find_files_to_include` of `generate4llm_script.py`: collect, then
`sorted(...)` — a stable ascending sort of the relative path strings. -/
def find_files_to_include (t : FSNode) : List Str :=
  List.insertionSort (fun a b => strSortLe a b = true)
    ((collectRel (fun n => should_exclude_from_tree n false)
      (fun n => should_exclude_from_tree n true) t).map relPathOf)

/-- `find_files_to_process` of `dev-tools/generate4LLM.py`: identical walk
with the dev variant's exclusion function. -/
def find_files_to_process (t : FSNode) : List Str :=
  List.insertionSort (fun a b => strSortLe a b = true)
    ((collectRel (fun n => should_exclude n false) (fun n => should_exclude n true) t).map
      relPathOf)

/-! ### Report assembler (`generate_markdown` of `generate4llm_script.py`) -/

/-- The `language_map` extension-to-label table. -/
def language_map : List (Str × Str) :=
  [(str ".py", str "python"), (str ".js", str "javascript"),
   (str ".ts", str "typescript"), (str ".tsx", str "typescript"),
   (str ".jsx", str "javascript"), (str ".html", str "html"),
   (str ".css", str "css"), (str ".json", str "json"),
   (str ".yml", str "yaml"), (str ".yaml", str "yaml"),
   (str ".md", str "markdown"), (str ".sh", str "bash"),
   (str ".sql", str "sql"), (str ".xml", str "xml"),
   (str ".dockerfile", str "dockerfile")]

/-- `os.path.splitext(p)[1]`: the extension starts at the basename's last
dot, except that a basename consisting of leading dots only (such as
`.env`) has no extension. -/
def splitextExt (p : Str) : Str :=
  let b := basename p
  let tailAfterDot := b.reverse.takeWhile (fun c => c ≠ '.')
  if tailAfterDot.length = b.length then []
  else
    let stem := b.take (b.length - tailAfterDot.length - 1)
    if stem.any (fun c => c ≠ '.') then '.' :: tailAfterDot.reverse else []

/-- `language_map.get(file_extension, '')`. -/
def lookupLang (ext : Str) : Str :=
  match language_map.find? (fun e => e.1 == ext) with
  | some e => e.2
  | none => []

/-- `file_path.replace("\\", "/")` (a backslash is a single code point). -/
def replaceBsl (s : Str) : Str := s.map fun c => if c = '\\' then '/' else c

/-- Resolve a component path inside the tree, as opening
`os.path.join(root_dir, file_path)` resolves it on disk.  Real directories
have distinct child names, so `find?` picks the entry. -/
def lookupNode : FSNode → List Str → Option FSNode
  | t, [] => some t
  | .dir _ children, c :: cs =>
    match children.find? (fun e => e.1 == c) with
    | some e => lookupNode e.2 cs
    | none => none
  | .file _, _ :: _ => none

/-- Open and read the file at a relative path string: a missing entry or a
directory makes `open` raise, which `read_file_content` turns into the
placeholder.  Collected paths always resolve to files, so the message chosen
for the unreachable branch is immaterial. -/
def readAtPath (root : FSNode) (p : Str) : Str :=
  match lookupNode root (splitSlash p) with
  | some (.file d) => read_file_content d
  | _ => read_file_content (.openError (str "[Errno 2] No such file or directory"))

/-- One `## FILE:` section of the report: path header, then the content in a
fence tagged with the language looked up from the lowercased extension. -/
def fileSection (root : FSNode) (p : Str) : Str :=
  str "## FILE: " ++ replaceBsl p ++ str "\n\n"
    ++ str "```" ++ lookupLang (pyLower (splitextExt p)) ++ ['\n']
    ++ readAtPath root p
    ++ str "\n```\n\n"

/-- The full markdown content `generate_markdown` builds before writing it:
header, fenced tree block (`folder_name` line plus `generate_tree` at depth
0 with `max_depth = 10`), then one section per collected file. -/
def generate_markdown (folder_name : Str) (root : FSNode) : Str :=
  let tree_structure := folder_name ++ ['\n']
    ++ generate_tree should_exclude_from_tree root [] 10 0
  let files := find_files_to_include root
  str "# Project Structure and Files\n\n"
    ++ str "My folder structure is as below:\n\n"
    ++ str "```\n" ++ tree_structure ++ str "```\n\n"
    ++ str "## File Contents\n\n"
    ++ (files.map (fileSection root)).flatten

/-! ### Well-formedness and canonical form of directory trees

`wellFormed` states what is true of every real directory: entry names are
nonempty, contain no `/`, and are pairwise distinct within a directory.
`canon` recursively sorts every children list by name; two enumerations of
the same on-disk tree have the same `canon` image, so a function of
`canon t` is exactly a function independent of filesystem iteration
order. -/

/-- Name sanity for one entry name. -/
def nameOk (n : Str) : Bool := !n.isEmpty && !n.contains '/'

mutual

def wellFormed : FSNode → Bool
  | .file _ => true
  | .dir _ children =>
    (children.map Prod.fst).all nameOk
      && ((children.map Prod.fst).Nodup : Bool)
      && childrenWF children

def childrenWF : List (Str × FSNode) → Bool
  | [] => true
  | e :: rest => wellFormed e.2 && childrenWF rest

end

/-- Stable sort of a children list by entry name. -/
def sortByName (children : List (Str × FSNode)) : List (Str × FSNode) :=
  List.insertionSort (fun a b => strSortLe a.1 b.1 = true) children

mutual

def canon : FSNode → FSNode
  | .file d => .file d
  | .dir readable children => .dir readable (sortByName (canonChildren children))

def canonChildren : List (Str × FSNode) → List (Str × FSNode)
  | [] => []
  | (n, t) :: rest => (n, canon t) :: canonChildren rest

end

/-! `keysDistinct`: in every directory of the tree, the non-excluded children
(the entries `generate_tree` keeps) have pairwise distinct sort keys
`(not is_dir, name.lower())`.  A case-insensitive key collision (for example
siblings `A.txt` and `a.txt`) makes the stable sort depend on enumeration
order. -/

mutual

def keysDistinct : FSNode → Bool
  | .file _ => true
  | .dir _ children =>
    (((children.filter fun e =>
        !should_exclude_from_tree e.1 e.2.isDir).map treeKey).Nodup : Bool)
      && childrenKD children

def childrenKD : List (Str × FSNode) → Bool
  | [] => true
  | e :: rest => keysDistinct e.2 && childrenKD rest

end

/-! ### `project-to-gpt.py` -/

/-- `IGNORED_DIRS`. -/
def IGNORED_DIRS : List Str :=
  [str "node_modules", str ".git", str "dist", str "build", str "coverage",
   str "__pycache__", str ".pytest_cache", str "venv", str "env"]

/-- `IGNORED_FILES`. -/
def IGNORED_FILES : List Str := [str "package-lock.json", str "project_documentation.md"]

/-- `IGNORED_FILE_EXTENSIONS`. -/
def IGNORED_FILE_EXTENSIONS : List Str :=
  [str ".png", str ".jpg", str ".jpeg", str ".gif", str ".svg", str ".ico",
   str ".ttf", str ".woff", str ".woff2", str ".eot",
   str ".mp4", str ".webm", str ".ogg",
   str ".pdf", str ".doc", str ".docx",
   str ".zip", str ".tar", str ".gz",
   str ".pyc", str ".pyo", str ".pyd",
   str ".lock"]

/-- `LANGUAGE_MAP` of `project-to-gpt.py`. -/
def LANGUAGE_MAP : List (Str × Str) :=
  [(str ".py", str "python"), (str ".js", str "javascript"),
   (str ".jsx", str "jsx"), (str ".ts", str "typescript"),
   (str ".tsx", str "tsx"), (str ".java", str "java"), (str ".cpp", str "cpp"),
   (str ".c", str "c"), (str ".html", str "html"), (str ".css", str "css"),
   (str ".scss", str "scss"), (str ".md", str "markdown"),
   (str ".json", str "json"), (str ".yaml", str "yaml"),
   (str ".yml", str "yaml"), (str ".sh", str "bash"), (str ".sql", str "sql"),
   (str ".rs", str "rust"), (str ".go", str "go"), (str ".rb", str "ruby"),
   (str ".php", str "php")]

/-- `pathlib.PurePath.suffix` of an entry name: the part from the last dot,
provided that dot is neither the first nor the last character. -/
def pathlibSuffix (n : Str) : Str :=
  let tailAfterDot := n.reverse.takeWhile (fun c => c ≠ '.')
  if tailAfterDot.length = n.length then []
  else if n.length - tailAfterDot.length - 1 = 0 then []
  else if tailAfterDot.length = 0 then []
  else '.' :: tailAfterDot.reverse

/-- `should_process_path`: no leading dot, name not an ignored directory
name, lowercased suffix not an ignored extension, name not an ignored
file name. -/
def should_process_path (n : Str) : Bool :=
  !pyStartsWith n (str ".") && !IGNORED_DIRS.contains n
    && !IGNORED_FILE_EXTENSIONS.contains (pyLower (pathlibSuffix n))
    && !IGNORED_FILES.contains n

/-- `LANGUAGE_MAP.get(suffix.lower(), '')`. -/
def ptgLang (ext : Str) : Str :=
  match LANGUAGE_MAP.find? (fun e => e.1 == ext) with
  | some e => e.2
  | none => []

/-- What `process_file` writes for one file: nothing when the file cannot be
opened or is not valid UTF-8 (both cases only print a console message),
otherwise the `file path:` block with the fenced content. -/
def ptgFileSection (relp : Str) (d : FileData) : Str :=
  match d with
  | .openError _ => []
  | .bytes bs =>
    match utf8Decode bs with
    | none => []
    | some cs =>
      str "\nfile path: " ++ relp ++ str "\n\n"
        ++ str "```" ++ ptgLang (pyLower (pathlibSuffix (basename relp))) ++ ['\n']
        ++ cs ++ ['\n'] ++ str "```"

/-- A permutation leaves the `sizeOf` of a children list unchanged. -/
theorem sizeOf_sortByName (l : List (Str × FSNode)) : sizeOf (sortByName l) = sizeOf l :=
  (List.perm_insertionSort _ l).sizeOf_eq_sizeOf

mutual

/-- `process_directory`: iterate `sorted(dir_path.iterdir())` (`Path`
ordering sorts sibling entries by name), keep entries passing
`should_process_path`, recurse into directories and write file sections; a
failing `iterdir` (unreadable directory) is caught and writes nothing. -/
def processDirectory (root : FSNode) (pre : List Str) : Str :=
  match root with
  | .file _ => []
  | .dir readable children =>
    if readable then processEntries (sortByName children) pre else []
termination_by sizeOf root
decreasing_by
  simp only [sizeOf_sortByName, FSNode.dir.sizeOf_spec]
  omega

def processEntries (l : List (Str × FSNode)) (pre : List Str) : Str :=
  match l with
  | [] => []
  | (n, t) :: rest =>
    (if should_process_path n then
        match t with
        | .dir r cs => processDirectory (.dir r cs) (pre ++ [n])
        | .file d => ptgFileSection (joinRel (pre ++ [n])) d
      else [])
      ++ processEntries rest pre
termination_by sizeOf l
decreasing_by
  all_goals simp
  all_goals omega

end

/-- The full document `generate_documentation` writes: the header with the
generation timestamp, then the recursive directory content. -/
def generate_documentation (timestamp : Str) (root : FSNode) : Str :=
  str "# Project Documentation\n\nGenerated on: " ++ timestamp ++ str "\n\n"
    ++ processDirectory root []

/-- Outcome of one `project-to-gpt.py` run. -/
structure PtgOutcome where
  exitCode : Nat
  generatedDoc : Bool

/-- The `main()` control flow of `project-to-gpt.py` as far as the exit
status is concerned: when the resolved project path is not a directory it
prints an error message and `return`s from `main`, so the interpreter
finishes the script normally and the process exits with status 0; otherwise
it generates the documentation and also exits 0.  (An uncaught exception,
e.g. a write failure inside `generate_documentation`, would exit nonzero;
that branch is outside this claim.) -/
def ptg_main (projectPathIsDir : Bool) : PtgOutcome :=
  if projectPathIsDir then { exitCode := 0, generatedDoc := true }
  else { exitCode := 0, generatedDoc := false }

/-! ### Claim C1 -/

/-- C1: the claim states that `should_exclude` / `should_exclude_from_tree`
return true for a file name matching a wildcard exclusion entry `*.ext` by
suffix (e.g. `debug.log` against the entry `*.log`).  The code checks only
exact set membership (plus, in the stricter variant, a leading dot): for
`debug.log` both predicates return `false` although `*.log` is an exclusion
entry and `.log` is a suffix of the name, refuting the claimed
equivalence. -/
theorem c1_no_wildcard_suffix_exclusion :
    should_exclude (str "debug.log") false = false
    ∧ should_exclude_from_tree (str "debug.log") false = false
    ∧ exclude_files.contains (str "*.log") = true
    ∧ exclude_files_dev.contains (str "*.log") = true
    ∧ pyStartsWith (str "*.log") (str "*") = true
    ∧ pyEndsWith (str "debug.log") ((str "*.log").drop 1) = true := by
  decide

/-! ### Claim C3 -/

/-- Latin-1 decoding inverts to the original bytes. -/
theorem toNat_ofNat_of_lt {b : Nat} (h : b < 256) : (Char.ofNat b).toNat = b := by
  have hv : b.isValidChar := Or.inl (by omega)
  simp only [Char.ofNat, hv, dif_pos, Char.ofNatAux, Char.toNat, UInt32.toNat,
    BitVec.toNat_ofNatLt]

/-- C3: `read_file_content` never raises (it is a total function of the file
state): an unopenable file yields the placeholder embedding the error
description; a byte sequence that is not valid UTF-8 yields its Latin-1
decoding, which succeeds for any byte sequence (every byte below 256 maps to
the code point of the same value); valid UTF-8 yields the decoded text. -/
theorem c3_read_file_content_never_raises :
    (∀ e : Str, read_file_content (.openError e) = str "[Error reading file: " ++ e ++ str "]")
    ∧ (∀ bs : List Nat, utf8Decode bs = none → read_file_content (.bytes bs) = latin1Decode bs)
    ∧ (∀ bs : List Nat, (∀ b ∈ bs, b < 256) → (latin1Decode bs).map Char.toNat = bs)
    ∧ (∀ (bs : List Nat) (cs : List Char), utf8Decode bs = some cs →
        read_file_content (.bytes bs) = cs) := by
  refine ⟨fun e => rfl, fun bs h => ?_, fun bs h => ?_, fun bs cs h => ?_⟩
  · simp [read_file_content, h]
  · induction bs with
    | nil => rfl
    | cons b rest ih =>
      simp only [latin1Decode, List.map_map, List.map_cons] at ih ⊢
      refine congrArg₂ (· :: ·) (toNat_ofNat_of_lt (h b (by simp))) ?_
      simpa [latin1Decode, List.map_map] using ih (fun x hx => h x (by simp [hx]))
  · simp [read_file_content, h]

/-- Witness for C3 at the spec's example byte sequence `b"\xff\xfe\x00"`. -/
theorem c3_read_file_content_never_raises_witness :
    utf8Decode [0xff, 0xfe, 0] = none
    ∧ read_file_content (.bytes [0xff, 0xfe, 0]) = latin1Decode [0xff, 0xfe, 0]
    ∧ (latin1Decode [0xff, 0xfe, 0]).map Char.toNat = [0xff, 0xfe, 0]
    ∧ read_file_content (.openError (str "Permission denied"))
        = str "[Error reading file: Permission denied]" :=
  ⟨by decide,
   c3_read_file_content_never_raises.2.1 [0xff, 0xfe, 0] (by decide),
   c3_read_file_content_never_raises.2.2.1 [0xff, 0xfe, 0] (by decide),
   (c3_read_file_content_never_raises.1 (str "Permission denied")).trans (by decide)⟩

/-! ### Claim C4 -/

/-- C4: the claim states a non-zero exit code when the given project path is
not a directory.  `main()` of `project-to-gpt.py` prints an error and
`return`s, so the process exits with status 0 (and generates nothing),
refuting the claim. -/
theorem c4_invalid_root_exits_with_zero :
    (ptg_main false).exitCode = 0 ∧ (ptg_main false).generatedDoc = false := by
  decide

/-! ### Claim C8 -/

/-- C8: `generate_tree` is a total function (the embedding is structurally
recursive on `max_depth + 1 - current_depth`), and any call at a depth
beyond `max_depth` returns the empty string, contributing no lines. -/
theorem c8_generate_tree_stops_beyond_max_depth :
    ∀ (excl : Str → Bool → Bool) (t : FSNode) (pre : Str) (max_depth current_depth : Nat),
      max_depth < current_depth → generate_tree excl t pre max_depth current_depth = [] := by
  intro excl t pre maxD curD h
  unfold generate_tree
  have h0 : maxD + 1 - curD = 0 := by omega
  rw [h0]
  cases t <;> rfl

/-- Witness for C8: a concrete call one level beyond the default depth 10. -/
theorem c8_generate_tree_stops_beyond_max_depth_witness :
    10 < 11
    ∧ generate_tree should_exclude_from_tree
        (.dir true [(str "a", .file (.bytes []))]) [] 10 11 = [] :=
  ⟨by decide,
   c8_generate_tree_stops_beyond_max_depth should_exclude_from_tree
     (.dir true [(str "a", .file (.bytes []))]) [] 10 11 (by decide)⟩

/-! ### Collector membership facts -/

/-- What is true of every pair the walk emits: its ancestor components
extend the visit prefix by non-excluded directory names only, its filename
passed the exclusion check, and its relative path passed the inclusion
check. -/
def collectedOk (exclF exclD : Str → Bool) (pre : List Str) (e : List Str × Str) : Prop :=
  (∃ suf, e.1 = pre ++ suf ∧ ∀ d ∈ suf, exclD d = false)
  ∧ exclF e.2 = false
  ∧ should_include_file (joinRel (e.1 ++ [e.2])) = true

theorem filesOf_mem {exclF : Str → Bool} {children : List (Str × FSNode)} {pre : List Str}
    {e : List Str × Str} (h : e ∈ filesOf exclF children pre) :
    e.1 = pre ∧ exclF e.2 = false
      ∧ should_include_file (joinRel (pre ++ [e.2])) = true
      ∧ e.2 ∈ children.map Prod.fst := by
  rw [filesOf, List.mem_filterMap] at h
  obtain ⟨⟨n, tn⟩, hmem, hf⟩ := h
  cases tn with
  | dir r cs => exact absurd hf (by simp)
  | file d =>
    dsimp only at hf
    by_cases hc : (!exclF n && should_include_file (joinRel (pre ++ [n]))) = true
    · rw [if_pos hc] at hf
      have he : e = (pre, n) := (Option.some.inj hf).symm
      subst he
      simp only [Bool.and_eq_true, Bool.not_eq_true'] at hc
      exact ⟨rfl, hc.1, hc.2, List.mem_map.mpr ⟨(n, FSNode.file d), hmem, rfl⟩⟩
    · rw [if_neg hc] at hf
      exact absurd hf (by simp)

mutual

theorem walkNode_mem_ok (exclF exclD : Str → Bool) :
    ∀ (t : FSNode) (pre : List Str) (e : List Str × Str),
      e ∈ walkNode exclF exclD t pre → collectedOk exclF exclD pre e
  | .file _, _, e, h => by simp [walkNode] at h
  | .dir r children, pre, e, h => by
    rw [walkNode] at h
    by_cases hr : r = true
    · rw [if_pos hr, List.mem_append] at h
      rcases h with h | h
      · obtain ⟨h1, h2, h3, _⟩ := filesOf_mem h
        exact ⟨⟨[], by simp [h1], by simp⟩, h2, by rw [h1]; exact h3⟩
      · exact walkList_mem_ok exclF exclD children pre e h
    · rw [if_neg hr] at h
      exact absurd h (List.not_mem_nil e)

theorem walkList_mem_ok (exclF exclD : Str → Bool) :
    ∀ (l : List (Str × FSNode)) (pre : List Str) (e : List Str × Str),
      e ∈ walkList exclF exclD l pre → collectedOk exclF exclD pre e
  | [], _, e, h => by simp [walkList] at h
  | (n, t) :: rest, pre, e, h => by
    rw [walkList, List.mem_append] at h
    rcases h with h | h
    · by_cases hc : (t.isDir && !exclD n) = true
      · rw [if_pos hc] at h
        simp only [Bool.and_eq_true, Bool.not_eq_true'] at hc
        obtain ⟨⟨suf, hsuf, hall⟩, h2, h3⟩ := walkNode_mem_ok exclF exclD t (pre ++ [n]) e h
        refine ⟨⟨n :: suf, by simpa using hsuf, ?_⟩, h2, h3⟩
        intro d hd
        rcases List.mem_cons.mp hd with rfl | hd
        · exact hc.2
        · exact hall d hd
      · rw [if_neg hc] at h
        exact absurd h (List.not_mem_nil e)
    · exact walkList_mem_ok exclF exclD rest pre e h

end

/-- Every collected pair of a whole walk has only non-excluded ancestor
components, a non-excluded filename, and an include-matching path. -/
theorem collectRel_mem_ok {exclF exclD : Str → Bool} {t : FSNode} {e : List Str × Str}
    (h : e ∈ collectRel exclF exclD t) :
    (∀ d ∈ e.1, exclD d = false) ∧ exclF e.2 = false
      ∧ should_include_file (joinRel (e.1 ++ [e.2])) = true := by
  obtain ⟨⟨suf, hsuf, hall⟩, h2, h3⟩ := walkNode_mem_ok exclF exclD t [] e h
  simp only [List.nil_append] at hsuf
  subst hsuf
  exact ⟨hall, h2, h3⟩

/-! ### Claim C2 -/

/-- C2: during collection the exclusion check runs before the inclusion
check: every collected file has a non-excluded name (and an
include-matching path), so an excluded file is never added to the result
even when it matches an include pattern — as `package-lock.json` does
(`*.json`), yet it can never appear in the result. -/
theorem c2_exclusion_precedes_inclusion :
    (∀ (exclF exclD : Str → Bool) (t : FSNode) (e : List Str × Str),
        e ∈ collectRel exclF exclD t →
          exclF e.2 = false ∧ should_include_file (joinRel (e.1 ++ [e.2])) = true)
    ∧ should_exclude_from_tree (str "package-lock.json") false = true
    ∧ should_include_file (str "package-lock.json") = true
    ∧ (∀ (t : FSNode) (e : List Str × Str),
        e ∈ collectRel (fun n => should_exclude_from_tree n false)
            (fun n => should_exclude_from_tree n true) t →
          e.2 ≠ str "package-lock.json") := by
  refine ⟨fun exclF exclD t e h => (collectRel_mem_ok h).2, by decide, by decide, ?_⟩
  intro t e h heq
  have h2 := (collectRel_mem_ok h).2.1
  rw [heq] at h2
  have : should_exclude_from_tree (str "package-lock.json") false = true := by decide
  rw [this] at h2
  exact Bool.noConfusion h2

/-- Witness for C2 on a one-file tree. -/
theorem c2_exclusion_precedes_inclusion_witness :
    (([], str "app.py") ∈ collectRel (fun n => should_exclude_from_tree n false)
        (fun n => should_exclude_from_tree n true)
        (.dir true [(str "app.py", .file (.bytes []))]))
    ∧ should_exclude_from_tree (str "app.py") false = false
    ∧ should_include_file (joinRel ([] ++ [str "app.py"])) = true
    ∧ (([], str "app.py") : List Str × Str).2 ≠ str "package-lock.json" :=
  have hm : ([], str "app.py") ∈ collectRel (fun n => should_exclude_from_tree n false)
      (fun n => should_exclude_from_tree n true)
      (.dir true [(str "app.py", .file (.bytes []))]) := by decide
  ⟨hm,
   (c2_exclusion_precedes_inclusion.1 _ _ _ _ hm).1,
   (c2_exclusion_precedes_inclusion.1 _ _ _ _ hm).2,
   c2_exclusion_precedes_inclusion.2.2.2 _ _ hm⟩

/-! ### Claim C5 -/

/-- C5: the walk prunes excluded directory names before descending, so no
collected relative path has an ancestor directory component that the
directory-exclusion predicate accepts; instantiated to both scripts, no
ancestor component is ever a member of `exclude_dirs`, even when the
filename matches an include pattern. -/
theorem c5_no_excluded_ancestor_directory :
    (∀ (exclF exclD : Str → Bool) (t : FSNode) (e : List Str × Str),
        e ∈ collectRel exclF exclD t → ∀ d ∈ e.1, exclD d = false)
    ∧ (∀ (t : FSNode) (e : List Str × Str),
        e ∈ collectRel (fun n => should_exclude_from_tree n false)
            (fun n => should_exclude_from_tree n true) t →
          ∀ d ∈ e.1, exclude_dirs.contains d = false)
    ∧ (∀ (t : FSNode) (e : List Str × Str),
        e ∈ collectRel (fun n => should_exclude n false)
            (fun n => should_exclude n true) t →
          ∀ d ∈ e.1, exclude_dirs.contains d = false) := by
  refine ⟨fun exclF exclD t e h => (collectRel_mem_ok h).1, ?_, ?_⟩
  · intro t e h d hd
    exact (collectRel_mem_ok h).1 d hd
  · intro t e h d hd
    exact (collectRel_mem_ok h).1 d hd

/-- Witness for C5 on a tree with one subdirectory level. -/
theorem c5_no_excluded_ancestor_directory_witness :
    (([str "sub"], str "app.py") ∈ collectRel (fun n => should_exclude_from_tree n false)
        (fun n => should_exclude_from_tree n true)
        (.dir true [(str "sub", .dir true [(str "app.py", .file (.bytes []))])]))
    ∧ str "sub" ∈ [str "sub"]
    ∧ exclude_dirs.contains (str "sub") = false :=
  have hm : ([str "sub"], str "app.py") ∈ collectRel
      (fun n => should_exclude_from_tree n false)
      (fun n => should_exclude_from_tree n true)
      (.dir true [(str "sub", .dir true [(str "app.py", .file (.bytes []))])]) := by decide
  have hd : str "sub" ∈ [str "sub"] := by decide
  ⟨hm, hd, c5_no_excluded_ancestor_directory.2.1 _ _ hm (str "sub") hd⟩

/-! ### Collector: distinctness of results -/

theorem childrenWF_mem : ∀ {l : List (Str × FSNode)}, childrenWF l = true →
    ∀ e ∈ l, wellFormed e.2 = true
  | [], _, e, h => absurd h (List.not_mem_nil e)
  | x :: rest, hw, e, h => by
    rw [childrenWF, Bool.and_eq_true] at hw
    rcases List.mem_cons.mp h with rfl | h
    · exact hw.1
    · exact childrenWF_mem hw.2 e h

theorem wellFormed_dir {r : Bool} {children : List (Str × FSNode)}
    (h : wellFormed (.dir r children) = true) :
    (children.map Prod.fst).all nameOk = true ∧ (children.map Prod.fst).Nodup
      ∧ childrenWF children = true := by
  rw [wellFormed, Bool.and_eq_true, Bool.and_eq_true] at h
  exact ⟨h.1.1, of_decide_eq_true h.1.2, h.2⟩

theorem walkList_mem_head (exclF exclD : Str → Bool) :
    ∀ (l : List (Str × FSNode)) (pre : List Str) (e : List Str × Str),
      e ∈ walkList exclF exclD l pre →
      ∃ m suf, e.1 = pre ++ m :: suf ∧ m ∈ l.map Prod.fst
  | [], _, e, h => by simp [walkList] at h
  | (n, t) :: rest, pre, e, h => by
    rw [walkList, List.mem_append] at h
    rcases h with h | h
    · by_cases hc : (t.isDir && !exclD n) = true
      · rw [if_pos hc] at h
        obtain ⟨⟨suf, hsuf, _⟩, _, _⟩ := walkNode_mem_ok exclF exclD t (pre ++ [n]) e h
        refine ⟨n, suf, by simpa using hsuf, ?_⟩
        rw [List.map_cons]
        exact List.mem_cons_self _ _
      · rw [if_neg hc] at h
        exact absurd h (List.not_mem_nil e)
    · obtain ⟨m, suf, h1, h2⟩ := walkList_mem_head exclF exclD rest pre e h
      refine ⟨m, suf, h1, ?_⟩
      rw [List.map_cons]
      exact List.mem_cons_of_mem _ h2

theorem filesOf_nodup {exclF : Str → Bool} :
    ∀ {children : List (Str × FSNode)} {pre : List Str},
      (children.map Prod.fst).Nodup → (filesOf exclF children pre).Nodup := by
  intro children
  induction children with
  | nil => intro pre _; simp [filesOf]
  | cons x rest ih =>
    intro pre h
    rw [List.map_cons, List.nodup_cons] at h
    obtain ⟨n, t⟩ := x
    cases t with
    | dir r cs => simpa [filesOf, List.filterMap_cons] using ih h.2
    | file d =>
      rw [filesOf, List.filterMap_cons]
      dsimp only
      by_cases hc : (!exclF n && should_include_file (joinRel (pre ++ [n]))) = true
      · rw [if_pos hc, List.nodup_cons]
        refine ⟨fun hmem => ?_, ih h.2⟩
        exact h.1 (filesOf_mem hmem).2.2.2
      · rw [if_neg hc]
        exact ih h.2

mutual

theorem walkNode_nodup (exclF exclD : Str → Bool) :
    ∀ (t : FSNode) (pre : List Str), wellFormed t = true →
      (walkNode exclF exclD t pre).Nodup
  | .file _, _, _ => by simp [walkNode]
  | .dir r children, pre, hwf => by
    rw [walkNode]
    by_cases hr : r = true
    · rw [if_pos hr]
      obtain ⟨_, hnodup, hcw⟩ := wellFormed_dir hwf
      refine List.Nodup.append (filesOf_nodup hnodup)
        (walkList_nodup exclF exclD children pre hnodup hcw) ?_
      intro x hx1 hx2
      have h1 : x.1 = pre := (filesOf_mem hx1).1
      obtain ⟨m, suf, h2, _⟩ := walkList_mem_head exclF exclD children pre x hx2
      rw [h1] at h2
      have := congrArg List.length h2
      simp at this
    · rw [if_neg hr]
      exact List.nodup_nil

theorem walkList_nodup (exclF exclD : Str → Bool) :
    ∀ (l : List (Str × FSNode)) (pre : List Str), (l.map Prod.fst).Nodup →
      childrenWF l = true → (walkList exclF exclD l pre).Nodup
  | [], _, _, _ => by simp [walkList]
  | (n, t) :: rest, pre, hnodup, hcw => by
    rw [walkList]
    rw [List.map_cons, List.nodup_cons] at hnodup
    rw [childrenWF, Bool.and_eq_true] at hcw
    refine List.Nodup.append ?_ (walkList_nodup exclF exclD rest pre hnodup.2 hcw.2) ?_
    · by_cases hc : (t.isDir && !exclD n) = true
      · rw [if_pos hc]
        exact walkNode_nodup exclF exclD t (pre ++ [n]) hcw.1
      · rw [if_neg hc]
        exact List.nodup_nil
    · intro x hx1 hx2
      by_cases hc : (t.isDir && !exclD n) = true
      · rw [if_pos hc] at hx1
        obtain ⟨⟨suf, h1, _⟩, _, _⟩ := walkNode_mem_ok exclF exclD t (pre ++ [n]) x hx1
        obtain ⟨m, suf2, h2, hm⟩ := walkList_mem_head exclF exclD rest pre x hx2
        rw [h2, List.append_assoc] at h1
        have h3 := List.append_cancel_left h1
        have h4 : m = n := (List.cons.inj h3).1
        subst h4
        exact hnodup.1 hm
      · rw [if_neg hc] at hx1
        exact absurd hx1 (List.not_mem_nil x)

end

mutual

theorem walkNode_namesOk (exclF exclD : Str → Bool) :
    ∀ (t : FSNode) (pre : List Str), wellFormed t = true →
      (∀ c ∈ pre, nameOk c = true) →
      ∀ e ∈ walkNode exclF exclD t pre,
        (∀ c ∈ e.1, nameOk c = true) ∧ nameOk e.2 = true
  | .file _, _, _, _, e, h => by simp [walkNode] at h
  | .dir r children, pre, hwf, hpre, e, h => by
    rw [walkNode] at h
    by_cases hr : r = true
    · rw [if_pos hr, List.mem_append] at h
      obtain ⟨hnames, _, hcw⟩ := wellFormed_dir hwf
      rw [List.all_eq_true] at hnames
      rcases h with h | h
      · obtain ⟨h1, _, _, hmem⟩ := filesOf_mem h
        exact ⟨by rw [h1]; exact hpre, hnames _ hmem⟩
      · exact walkList_namesOk exclF exclD children pre
          (fun m hm => hnames m hm) hcw hpre e h
    · rw [if_neg hr] at h
      exact absurd h (List.not_mem_nil e)

theorem walkList_namesOk (exclF exclD : Str → Bool) :
    ∀ (l : List (Str × FSNode)) (pre : List Str),
      (∀ m ∈ l.map Prod.fst, nameOk m = true) → childrenWF l = true →
      (∀ c ∈ pre, nameOk c = true) →
      ∀ e ∈ walkList exclF exclD l pre,
        (∀ c ∈ e.1, nameOk c = true) ∧ nameOk e.2 = true
  | [], _, _, _, _, e, h => by simp [walkList] at h
  | (n, t) :: rest, pre, hnames, hcw, hpre, e, h => by
    rw [walkList, List.mem_append] at h
    rw [childrenWF, Bool.and_eq_true] at hcw
    rcases h with h | h
    · by_cases hc : (t.isDir && !exclD n) = true
      · rw [if_pos hc] at h
        refine walkNode_namesOk exclF exclD t (pre ++ [n]) hcw.1 ?_ e h
        intro c hcm
        rcases List.mem_append.mp hcm with hcm | hcm
        · exact hpre c hcm
        · rw [List.mem_singleton.mp hcm]
          refine hnames n ?_
          rw [List.map_cons]
          exact List.mem_cons_self _ _
      · rw [if_neg hc] at h
        exact absurd h (List.not_mem_nil e)
    · refine walkList_namesOk exclF exclD rest pre (fun m hm => hnames m ?_) hcw.2 hpre e h
      rw [List.map_cons]
      exact List.mem_cons_of_mem _ hm

end

/-! ### Path strings: injectivity of joining, basename facts -/

theorem not_mem_of_contains_false {c : Char} {n : Str} (h : n.contains c = false) : c ∉ n := by
  intro hm
  have h2 : List.elem c n = true := List.elem_eq_true_of_mem hm
  rw [show n.contains c = List.elem c n from rfl, h2] at h
  exact Bool.noConfusion h

theorem nameOk_spec {n : Str} (h : nameOk n = true) : n ≠ [] ∧ '/' ∉ n := by
  rw [nameOk, Bool.and_eq_true, Bool.not_eq_true', Bool.not_eq_true'] at h
  refine ⟨fun he => ?_, not_mem_of_contains_false h.2⟩
  subst he
  exact Bool.noConfusion h.1

theorem append_slash_inj : ∀ {a b r1 r2 : Str}, '/' ∉ a → '/' ∉ b →
    a ++ '/' :: r1 = b ++ '/' :: r2 → a = b ∧ r1 = r2
  | [], [], _, _, _, _, h => ⟨rfl, (List.cons.inj h).2⟩
  | [], x :: b', _, _, _, hb, h => by
    rw [List.nil_append, List.cons_append] at h
    exact absurd (List.mem_cons_self x b') ((List.cons.inj h).1 ▸ hb)
  | x :: a', [], _, _, ha, _, h => by
    rw [List.nil_append, List.cons_append] at h
    exact absurd (List.mem_cons_self x a') ((List.cons.inj h).1.symm ▸ ha)
  | x :: a', y :: b', r1, r2, ha, hb, h => by
    rw [List.cons_append, List.cons_append] at h
    obtain ⟨rfl, h2⟩ := List.cons.inj h
    obtain ⟨h3, h4⟩ := append_slash_inj (fun hm => ha (List.mem_cons_of_mem x hm))
      (fun hm => hb (List.mem_cons_of_mem x hm)) h2
    exact ⟨by rw [h3], h4⟩

theorem joinRel_cons_of_ne_nil {c : Str} {rest : List Str} (h : rest ≠ []) :
    joinRel (c :: rest) = c ++ '/' :: joinRel rest := by
  cases rest with
  | nil => exact absurd rfl h
  | cons b br => rfl

theorem joinRel_inj : ∀ {l1 l2 : List Str}, (∀ c ∈ l1, nameOk c = true) →
    (∀ c ∈ l2, nameOk c = true) → l1 ≠ [] → l2 ≠ [] → joinRel l1 = joinRel l2 → l1 = l2
  | [], _, _, _, hne, _, _ => absurd rfl hne
  | _ :: _, [], _, _, _, hne, _ => absurd rfl hne
  | [a], [b], _, _, _, _, h => by rw [show joinRel [a] = a from rfl, show joinRel [b] = b from rfl] at h; rw [h]
  | [a], b :: b2 :: br, h1, h2, _, _, h => by
    rw [show joinRel [a] = a from rfl, joinRel_cons_of_ne_nil (List.cons_ne_nil b2 br)] at h
    have hsl : '/' ∈ a := h ▸ List.mem_append_right b (List.mem_cons_self _ _)
    exact absurd hsl (nameOk_spec (h1 a (List.mem_singleton_self a))).2
  | a :: a2 :: ar, [b], h1, h2, _, _, h => by
    rw [show joinRel [b] = b from rfl, joinRel_cons_of_ne_nil (List.cons_ne_nil a2 ar)] at h
    have hsl : '/' ∈ b := h ▸ List.mem_append_right a (List.mem_cons_self _ _)
    exact absurd hsl (nameOk_spec (h2 b (List.mem_singleton_self b))).2
  | a :: a2 :: ar, b :: b2 :: br, h1, h2, _, _, h => by
    rw [joinRel_cons_of_ne_nil (List.cons_ne_nil a2 ar),
      joinRel_cons_of_ne_nil (List.cons_ne_nil b2 br)] at h
    obtain ⟨h3, h4⟩ := append_slash_inj
      (nameOk_spec (h1 a (List.mem_cons_self _ _))).2
      (nameOk_spec (h2 b (List.mem_cons_self _ _))).2 h
    have h5 := joinRel_inj (fun c hc => h1 c (List.mem_cons_of_mem a hc))
      (fun c hc => h2 c (List.mem_cons_of_mem b hc))
      (List.cons_ne_nil a2 ar) (List.cons_ne_nil b2 br) h4
    rw [h3, h5]

theorem takeWhile_append_cons {p : Char → Bool} (l1 : Str) (x : Char) (l2 : Str)
    (hx : p x = false) : (l1 ++ x :: l2).takeWhile p = l1.takeWhile p := by
  rw [List.takeWhile_append]
  by_cases h : (l1.takeWhile p).length = l1.length
  · rw [if_pos h]
    have heq : l1.takeWhile p = l1 := (List.takeWhile_prefix p).eq_of_length h
    rw [List.takeWhile_cons_of_neg (by rw [hx]; exact Bool.noConfusion), List.append_nil, heq]
  · rw [if_neg h]

theorem basename_append_slash (a r : Str) : basename (a ++ '/' :: r) = basename r := by
  unfold basename
  have h1 : (a ++ '/' :: r).reverse = r.reverse ++ '/' :: a.reverse := by
    rw [List.reverse_append, List.reverse_cons, List.append_assoc, List.singleton_append]
  rw [h1, takeWhile_append_cons _ _ _ (by simp)]

theorem basename_no_slash {n : Str} (h : '/' ∉ n) : basename n = n := by
  unfold basename
  rw [List.takeWhile_eq_self_iff.mpr, List.reverse_reverse]
  intro x hx
  simp only [ne_eq, decide_eq_true_eq]
  intro hxe
  subst hxe
  exact h (List.mem_reverse.mp hx)

theorem basename_joinRel : ∀ (cs : List Str) {n : Str}, '/' ∉ n →
    basename (joinRel (cs ++ [n])) = n
  | [], n, h => basename_no_slash h
  | c :: cs', n, h => by
    rw [List.cons_append, joinRel_cons_of_ne_nil (by simp), basename_append_slash]
    exact basename_joinRel cs' h

/-- Distinct collected pairs have distinct relative path strings. -/
theorem map_relPathOf_nodup {exclF exclD : Str → Bool} {t : FSNode}
    (hwf : wellFormed t = true) :
    ((collectRel exclF exclD t).map relPathOf).Nodup := by
  refine List.Nodup.map_on ?_ (walkNode_nodup exclF exclD t [] hwf)
  intro e1 h1 e2 h2 heq
  obtain ⟨hco1, hn1⟩ := walkNode_namesOk exclF exclD t [] hwf (by simp) e1 h1
  obtain ⟨hco2, hn2⟩ := walkNode_namesOk exclF exclD t [] hwf (by simp) e2 h2
  have hall1 : ∀ c ∈ e1.1 ++ [e1.2], nameOk c = true := by
    intro c hc
    rcases List.mem_append.mp hc with hc | hc
    · exact hco1 c hc
    · rw [List.mem_singleton.mp hc]; exact hn1
  have hall2 : ∀ c ∈ e2.1 ++ [e2.2], nameOk c = true := by
    intro c hc
    rcases List.mem_append.mp hc with hc | hc
    · exact hco2 c hc
    · rw [List.mem_singleton.mp hc]; exact hn2
  have hlists := joinRel_inj hall1 hall2 (by simp) (by simp) heq
  have hrev := congrArg List.reverse hlists
  rw [List.reverse_append, List.reverse_append] at hrev
  simp only [List.reverse_cons, List.reverse_nil, List.nil_append,
    List.singleton_append] at hrev
  obtain ⟨hsnd, hfst⟩ := List.cons.inj hrev
  have hfst2 : e1.1 = e2.1 := by
    have := congrArg List.reverse hfst
    rwa [List.reverse_reverse, List.reverse_reverse] at this
  exact Prod.ext hfst2 hsnd

/-! ### Claim C6 -/

/-- C6: both collectors return a sequence sorted ascending by the relative
path string (no later element is `<` an earlier one), and for a well-formed
directory tree (distinct, nonempty, slash-free entry names — true of every
real directory) the sequence has no duplicates. -/
theorem c6_collector_sorted_and_distinct :
    ∀ t : FSNode,
      ((find_files_to_include t).Pairwise fun a b => pyLt b a = false)
      ∧ ((find_files_to_process t).Pairwise fun a b => pyLt b a = false)
      ∧ (wellFormed t = true →
          (find_files_to_include t).Nodup ∧ (find_files_to_process t).Nodup) := by
  intro t
  have hs : ∀ l : List Str,
      (List.insertionSort (fun a b => strSortLe a b = true) l).Pairwise
        fun a b => pyLt b a = false := by
    intro l
    refine (List.sorted_insertionSort (fun a b => strSortLe a b = true) l).imp ?_
    intro a b h
    rwa [strSortLe, Bool.not_eq_true'] at h
  refine ⟨hs _, hs _, fun hwf => ⟨?_, ?_⟩⟩
  · exact ((List.perm_insertionSort _ _).nodup_iff).mpr (map_relPathOf_nodup hwf)
  · exact ((List.perm_insertionSort _ _).nodup_iff).mpr (map_relPathOf_nodup hwf)

/-- Witness for C6 on a concrete well-formed tree. -/
theorem c6_collector_sorted_and_distinct_witness :
    wellFormed (.dir true [(str "b", .dir true [(str "app.py", .file (.bytes []))]),
      (str "main.py", .file (.bytes []))]) = true
    ∧ (find_files_to_include (.dir true [(str "b", .dir true [(str "app.py", .file (.bytes []))]),
        (str "main.py", .file (.bytes []))])).Nodup :=
  ⟨by decide,
   ((c6_collector_sorted_and_distinct _).2.2 (by decide)).1⟩

/-! ### Claim C10 -/

/-- C10: `.env.example` is an include-list entry and `should_include_file`
accepts it, but the leading-dot rule of `should_exclude_from_tree` excludes
it first, so `find_files_to_include` can never return a path whose basename
is `.env.example`: the include entry is unreachable. -/
theorem c10_env_example_entry_unreachable :
    (str ".env.example") ∈ include_files
    ∧ should_include_file (str ".env.example") = true
    ∧ should_exclude_from_tree (str ".env.example") false = true
    ∧ (∀ (t : FSNode) (e : List Str × Str),
        e ∈ collectRel (fun n => should_exclude_from_tree n false)
            (fun n => should_exclude_from_tree n true) t →
          e.2 ≠ str ".env.example")
    ∧ (∀ t : FSNode, wellFormed t = true →
        ∀ p ∈ find_files_to_include t, basename p ≠ str ".env.example") := by
  have hkey : should_exclude_from_tree (str ".env.example") false = true := by decide
  refine ⟨by decide, by decide, hkey, ?_, ?_⟩
  · intro t e h heq
    have h2 := (collectRel_mem_ok h).2.1
    rw [heq, hkey] at h2
    exact Bool.noConfusion h2
  · intro t hwf p hp heq
    have hp2 : p ∈ (collectRel (fun n => should_exclude_from_tree n false)
        (fun n => should_exclude_from_tree n true) t).map relPathOf :=
      ((List.perm_insertionSort _ _).mem_iff).mp hp
    obtain ⟨e, he, rfl⟩ := List.mem_map.mp hp2
    have hn2 := (walkNode_namesOk _ _ t [] hwf (by simp) e he).2
    have hbn : basename (relPathOf e) = e.2 :=
      basename_joinRel e.1 (nameOk_spec hn2).2
    rw [hbn] at heq
    have h2 := (collectRel_mem_ok he).2.1
    rw [heq, hkey] at h2
    exact Bool.noConfusion h2

/-- Witness for C10: a concrete tree containing a `.env.example` file; the
collector keeps `app.py` only. -/
theorem c10_env_example_entry_unreachable_witness :
    wellFormed (.dir true [(str ".env.example", .file (.bytes [])),
      (str "app.py", .file (.bytes []))]) = true
    ∧ (str "app.py") ∈ find_files_to_include (.dir true
        [(str ".env.example", .file (.bytes [])), (str "app.py", .file (.bytes []))])
    ∧ basename (str "app.py") ≠ str ".env.example" :=
  ⟨by decide, by decide,
   c10_env_example_entry_unreachable.2.2.2.2
     (.dir true [(str ".env.example", .file (.bytes [])), (str "app.py", .file (.bytes []))])
     (by decide) (str "app.py") (by decide)⟩

/-! ### Order facts about the tree sort key -/

theorem keyLt_irrefl (k : Bool × Str) : keyLt k k = false := by
  obtain ⟨a, s⟩ := k
  simp [keyLt, boolLt, pyLt_irrefl]

theorem keyLt_trans {k1 k2 k3 : Bool × Str} (h1 : keyLt k1 k2 = true)
    (h2 : keyLt k2 k3 = true) : keyLt k1 k3 = true := by
  obtain ⟨a, s⟩ := k1
  obtain ⟨b, t⟩ := k2
  obtain ⟨c, u⟩ := k3
  simp only [keyLt, boolLt, Bool.or_eq_true, Bool.and_eq_true, beq_iff_eq,
    Bool.not_eq_true'] at h1 h2 ⊢
  rcases h1 with ⟨ha, hb⟩ | ⟨rfl, h1⟩
  · rcases h2 with ⟨hb2, hc⟩ | ⟨rfl, h2⟩
    · rw [hb] at hb2
      exact Bool.noConfusion hb2
    · exact Or.inl ⟨ha, hb⟩
  · rcases h2 with ⟨hb2, hc⟩ | ⟨rfl, h2⟩
    · exact Or.inl ⟨hb2, hc⟩
    · exact Or.inr ⟨rfl, pyLt_trans h1 h2⟩

theorem keyLt_connex {k1 k2 : Bool × Str} (h1 : keyLt k1 k2 = false)
    (h2 : keyLt k2 k1 = false) : k1 = k2 := by
  obtain ⟨a, s⟩ := k1
  obtain ⟨b, t⟩ := k2
  cases a <;> cases b <;> simp only [keyLt, boolLt, Bool.not_false, Bool.not_true,
    Bool.true_and, Bool.false_and, Bool.and_true, Bool.and_false, Bool.true_or,
    Bool.false_or, beq_self_eq_true, Bool.true_and] at h1 h2
  · exact congrArg (Prod.mk false) (pyLt_connex s t (by simpa using h1) (by simpa using h2))
  · exact Bool.noConfusion h1
  · exact Bool.noConfusion h2
  · exact congrArg (Prod.mk true) (pyLt_connex s t (by simpa using h1) (by simpa using h2))

theorem keyLt_asymm {k1 k2 : Bool × Str} (h : keyLt k1 k2 = true) : keyLt k2 k1 = false := by
  cases hba : keyLt k2 k1
  · rfl
  · have := keyLt_trans h hba
    rw [keyLt_irrefl] at this
    exact absurd this Bool.false_ne_true

theorem keyLt_cases (k1 k2 : Bool × Str) :
    keyLt k1 k2 = true ∨ keyLt k2 k1 = true ∨ k1 = k2 := by
  cases hab : keyLt k1 k2
  · cases hba : keyLt k2 k1
    · exact Or.inr (Or.inr (keyLt_connex hab hba))
    · exact Or.inr (Or.inl rfl)
  · exact Or.inl rfl

theorem treeSortLe_total (e1 e2 : Str × FSNode) :
    treeSortLe e1 e2 = true ∨ treeSortLe e2 e1 = true := by
  unfold treeSortLe
  cases h : keyLt (treeKey e2) (treeKey e1)
  · exact Or.inl rfl
  · rw [keyLt_asymm h]
    exact Or.inr rfl

theorem treeSortLe_trans {e1 e2 e3 : Str × FSNode} (h1 : treeSortLe e1 e2 = true)
    (h2 : treeSortLe e2 e3 = true) : treeSortLe e1 e3 = true := by
  simp only [treeSortLe, Bool.not_eq_true'] at h1 h2 ⊢
  cases hca : keyLt (treeKey e3) (treeKey e1)
  · rfl
  · exfalso
    rcases keyLt_cases (treeKey e1) (treeKey e2) with hab | hba | heq
    · rw [keyLt_trans hca hab] at h2
      exact Bool.noConfusion h2
    · rw [hba] at h1
      exact Bool.noConfusion h1
    · rw [heq] at hca
      rw [hca] at h2
      exact Bool.noConfusion h2

instance : IsTotal (Str × FSNode) (fun e1 e2 => treeSortLe e1 e2 = true) := ⟨treeSortLe_total⟩

instance : IsTrans (Str × FSNode) (fun e1 e2 => treeSortLe e1 e2 = true) :=
  ⟨fun _ _ _ => treeSortLe_trans⟩

/-! ### The per-child emission of the tree renderer -/

theorem renderItems_eq_aux (recurse : FSNode → Str → Str) (pre : Str) :
    ∀ (l : List (Str × FSNode)) (k total : Nat), total = k + l.length →
      renderItems recurse pre l =
        ((l.enumFrom k).map fun ie =>
          (pre ++ (if ie.1 = total - 1 then str "└── " else str "├── ") ++ ie.2.1 ++ ['\n'])
            ++ (if ie.2.2.isDir then
                  recurse ie.2.2
                    (pre ++ (if ie.1 = total - 1 then str "    " else str "│   "))
                else [])).flatten
  | [], k, total, ht => by simp [renderItems]
  | [(n, t)], k, total, ht => by
    have hk : k = total - 1 := by
      rw [ht]
      simp
    rw [List.enumFrom_cons]
    simp only [List.enumFrom_nil, List.map_cons, List.map_nil, List.flatten_cons,
      List.flatten_nil, List.append_nil, if_pos hk]
    rw [renderItems, renderItems]
    simp
  | (n, t) :: (m, u) :: l, k, total, ht => by
    have hk : ¬ (k = total - 1) := by
      rw [ht]
      simp only [List.length_cons]
      omega
    rw [List.enumFrom_cons, List.map_cons, List.flatten_cons,
      ← renderItems_eq_aux recurse pre ((m, u) :: l) (k + 1) total
        (by rw [ht, List.length_cons]; omega)]
    simp only [if_neg hk]
    rw [renderItems]
    simp

/-! ### Claim C7 -/

/-- C7: at every level the tree renderer emits the non-excluded children
with all directories ordered before all files (no directory follows a
file), alphabetically case-insensitive within each group, and one line per
child consisting of the accumulated indentation, the branch glyph (`├── `
for non-last siblings, `└── ` for the last) and the name, followed for
directories by the recursive rendering at the next depth. -/
theorem c7_tree_level_order_and_glyphs :
    ∀ (excl : Str → Bool → Bool) (children : List (Str × FSNode)) (pre : Str)
      (max_depth current_depth : Nat), current_depth ≤ max_depth →
      (∀ (i j : Nat) (hi : i < (treeItems excl children).length)
          (hj : j < (treeItems excl children).length), i < j →
          ((treeItems excl children).get ⟨j, hj⟩).2.isDir = true →
          ((treeItems excl children).get ⟨i, hi⟩).2.isDir = true)
      ∧ (∀ (i j : Nat) (hi : i < (treeItems excl children).length)
          (hj : j < (treeItems excl children).length), i < j →
          ((treeItems excl children).get ⟨i, hi⟩).2.isDir
            = ((treeItems excl children).get ⟨j, hj⟩).2.isDir →
          pyLt (pyLower ((treeItems excl children).get ⟨j, hj⟩).1)
            (pyLower ((treeItems excl children).get ⟨i, hi⟩).1) = false)
      ∧ generate_tree excl (.dir true children) pre max_depth current_depth
          = (((treeItems excl children).enum).map fun ie =>
              (pre ++ (if ie.1 = (treeItems excl children).length - 1
                  then str "└── " else str "├── ") ++ ie.2.1 ++ ['\n'])
              ++ (if ie.2.2.isDir then
                    generate_tree excl ie.2.2
                      (pre ++ (if ie.1 = (treeItems excl children).length - 1
                        then str "    " else str "│   "))
                      max_depth (current_depth + 1)
                  else [])).flatten := by
  intro excl children pre maxD curD hd
  have hsorted : (treeItems excl children).Sorted (fun e1 e2 => treeSortLe e1 e2 = true) :=
    List.sorted_insertionSort _ _
  refine ⟨?_, ?_, ?_⟩
  · intro i j hi hj hij hdj
    have hr := hsorted.rel_get_of_lt (a := ⟨i, hi⟩) (b := ⟨j, hj⟩) hij
    rw [treeSortLe, Bool.not_eq_true'] at hr
    by_contra hdi
    have hdi2 : ((treeItems excl children).get ⟨i, hi⟩).2.isDir = false :=
      Bool.eq_false_iff.mpr hdi
    have hcontra : keyLt (treeKey ((treeItems excl children).get ⟨j, hj⟩))
        (treeKey ((treeItems excl children).get ⟨i, hi⟩)) = true := by
      unfold keyLt treeKey boolLt
      rw [hdj, hdi2]
      rfl
    rw [hcontra] at hr
    exact Bool.noConfusion hr
  · intro i j hi hj hij heq
    have hr := hsorted.rel_get_of_lt (a := ⟨i, hi⟩) (b := ⟨j, hj⟩) hij
    rw [treeSortLe, Bool.not_eq_true'] at hr
    unfold keyLt treeKey boolLt at hr
    rw [heq] at hr
    simp only [beq_self_eq_true, Bool.true_and, Bool.not_and_self, Bool.false_or,
      Bool.or_eq_false_iff] at hr
    exact hr
  · rw [generate_tree_eq, if_neg (by omega)]
    exact renderItems_eq_aux _ pre _ 0 _ (by simp)

/-- A sample children list for the C7 witness: one file and two
directories. -/
def sampleChildren : List (Str × FSNode) :=
  [(str "b.txt", .file (.bytes [])), (str "Z", .dir true []), (str "a", .dir true [])]

/-- Witness for C7: in the sorted items of `sampleChildren`, the entry
before the directory at position 1 is also a directory, and the two
directories are in case-insensitive alphabetical order. -/
theorem c7_tree_level_order_and_glyphs_witness :
    ((treeItems should_exclude_from_tree sampleChildren).get ⟨0, by decide⟩).2.isDir = true
    ∧ pyLt (pyLower ((treeItems should_exclude_from_tree sampleChildren).get ⟨1, by decide⟩).1)
        (pyLower ((treeItems should_exclude_from_tree sampleChildren).get ⟨0, by decide⟩).1)
      = false :=
  ⟨(c7_tree_level_order_and_glyphs should_exclude_from_tree sampleChildren [] 10 0
      (by decide)).1 0 1 (by decide) (by decide) (by decide) (by decide),
   (c7_tree_level_order_and_glyphs should_exclude_from_tree sampleChildren [] 10 0
      (by decide)).2.1 0 1 (by decide) (by decide) (by decide) (by decide)⟩

/-! ### Iteration-order invariance: generic sorting lemmas -/

/-- Two sorted permutations of each other are equal, provided the order is
antisymmetric on the elements involved. -/
theorem eq_of_perm_of_pairwise_local {α : Type} {r : α → α → Prop} :
    ∀ {l₁ l₂ : List α}, l₁.Perm l₂ → l₁.Pairwise r → l₂.Pairwise r →
      (∀ a ∈ l₁, ∀ b ∈ l₁, r a b → r b a → a = b) → l₁ = l₂
  | [], l₂, hp, _, _, _ => hp.nil_eq
  | a :: t₁, [], hp, _, _, _ => by
    have := hp.length_eq
    simp at this
  | a :: t₁, b :: t₂, hp, hs₁, hs₂, hanti => by
    have ha2 : a ∈ b :: t₂ := hp.subset (List.mem_cons_self a t₁)
    have hb1 : b ∈ a :: t₁ := hp.symm.subset (List.mem_cons_self b t₂)
    have hab : a = b := by
      rcases List.mem_cons.mp ha2 with h | ha2t
      · exact h
      · rcases List.mem_cons.mp hb1 with h | hb1t
        · exact h.symm
        · have hr1 : r a b := (List.pairwise_cons.mp hs₁).1 b hb1t
          have hr2 : r b a := (List.pairwise_cons.mp hs₂).1 a ha2t
          exact hanti a (List.mem_cons_self a t₁) b hb1 hr1 hr2
    subst hab
    have ht : t₁.Perm t₂ := hp.cons_inv
    have hrec := eq_of_perm_of_pairwise_local ht (List.pairwise_cons.mp hs₁).2
      (List.pairwise_cons.mp hs₂).2
      (fun x hx y hy => hanti x (List.mem_cons_of_mem a hx) y (List.mem_cons_of_mem a hy))
    rw [hrec]

/-- Stable sorts of two permuted lists agree when the relation is total,
transitive, and antisymmetric on the elements involved. -/
theorem insertionSort_eq_of_perm_local {α : Type} {r : α → α → Prop} [DecidableRel r]
    [IsTotal α r] [IsTrans α r] {l₁ l₂ : List α} (hp : l₁.Perm l₂)
    (hanti : ∀ a ∈ l₁, ∀ b ∈ l₁, r a b → r b a → a = b) :
    List.insertionSort r l₁ = List.insertionSort r l₂ := by
  refine eq_of_perm_of_pairwise_local
    ((List.perm_insertionSort r l₁).trans (hp.trans (List.perm_insertionSort r l₂).symm))
    (List.sorted_insertionSort r l₁) (List.sorted_insertionSort r l₂) ?_
  intro a ha b hb
  exact hanti a ((List.perm_insertionSort r l₁).subset ha)
    b ((List.perm_insertionSort r l₁).subset hb)

/-! ### Iteration-order invariance of the collector -/

theorem canonChildren_eq_map (l : List (Str × FSNode)) :
    canonChildren l = l.map fun e => (e.1, canon e.2) := by
  induction l with
  | nil => rfl
  | cons e rest ih =>
    obtain ⟨n, t⟩ := e
    rw [canonChildren, ih]
    rfl

theorem canon_isDir (t : FSNode) : (canon t).isDir = t.isDir := by
  cases t <;> rfl

theorem filesOf_canonChildren (exclF : Str → Bool) (l : List (Str × FSNode)) (pre : List Str) :
    filesOf exclF (canonChildren l) pre = filesOf exclF l pre := by
  rw [filesOf, filesOf, canonChildren_eq_map, List.filterMap_map]
  refine List.filterMap_congr ?_
  intro e he
  obtain ⟨n, t⟩ := e
  cases t <;> rfl

theorem filesOf_perm (exclF : Str → Bool) {l₁ l₂ : List (Str × FSNode)} (h : l₁.Perm l₂)
    (pre : List Str) : (filesOf exclF l₁ pre).Perm (filesOf exclF l₂ pre) := by
  rw [filesOf, filesOf]
  exact List.Perm.filterMap _ h

theorem walkList_eq_flatMap (exclF exclD : Str → Bool) :
    ∀ (l : List (Str × FSNode)) (pre : List Str),
      walkList exclF exclD l pre = l.flatMap fun e =>
        if e.2.isDir && !exclD e.1 then walkNode exclF exclD e.2 (pre ++ [e.1]) else []
  | [], _ => rfl
  | (n, t) :: rest, pre => by
    rw [walkList, List.flatMap_cons, walkList_eq_flatMap exclF exclD rest pre]

mutual

theorem walkNode_canon_perm (exclF exclD : Str → Bool) :
    ∀ (t : FSNode) (pre : List Str),
      (walkNode exclF exclD (canon t) pre).Perm (walkNode exclF exclD t pre)
  | .file d, pre => by
    rw [canon]
  | .dir r ch, pre => by
    rw [canon, walkNode, walkNode]
    by_cases hr : r = true
    · rw [if_pos hr, if_pos hr]
      refine List.Perm.append ?_ ?_
      · refine (filesOf_perm exclF (List.perm_insertionSort _ _) pre).trans ?_
        rw [filesOf_canonChildren]
      · rw [walkList_eq_flatMap, walkList_eq_flatMap]
        refine ((List.Perm.flatMap_right _ (List.perm_insertionSort _ _)).trans ?_)
        rw [canonChildren_eq_map, List.flatMap_map]
        refine List.Perm.flatMap_left ch ?_
        intro e he
        obtain ⟨n, t⟩ := e
        dsimp only
        rw [canon_isDir]
        by_cases hc : (t.isDir && !exclD n) = true
        · rw [if_pos hc, if_pos hc]
          exact walkChildren_canon_perm exclF exclD ch (n, t) he (pre ++ [n])
        · rw [if_neg hc, if_neg hc]
    · rw [if_neg hr, if_neg hr]
termination_by t => sizeOf t
decreasing_by
  all_goals simp

theorem walkChildren_canon_perm (exclF exclD : Str → Bool) :
    ∀ (l : List (Str × FSNode)) (e : Str × FSNode), e ∈ l → ∀ (q : List Str),
      (walkNode exclF exclD (canon e.2) q).Perm (walkNode exclF exclD e.2 q)
  | [], e, he, _ => absurd he (List.not_mem_nil e)
  | (xn, xt) :: rest, e, he, q => by
    rcases List.mem_cons.mp he with rfl | he
    · exact walkNode_canon_perm exclF exclD xt q
    · exact walkChildren_canon_perm exclF exclD rest e he q
termination_by l => sizeOf l
decreasing_by
  all_goals simp
  all_goals omega

end

theorem collectRel_canon_perm (exclF exclD : Str → Bool) (t : FSNode) :
    (collectRel exclF exclD (canon t)).Perm (collectRel exclF exclD t) :=
  walkNode_canon_perm exclF exclD t []

/-- The sorted collector output is invariant under canonicalisation of the
children order. -/
theorem find_files_to_include_canon (t : FSNode) :
    find_files_to_include (canon t) = find_files_to_include t := by
  unfold find_files_to_include
  refine List.eq_of_perm_of_sorted
    ((List.perm_insertionSort _ _).trans (((collectRel_canon_perm _ _ t).map relPathOf).trans
      (List.perm_insertionSort _ _).symm))
    (List.sorted_insertionSort _ _) (List.sorted_insertionSort _ _)

/-! ### Iteration-order invariance of the tree renderer -/

theorem treeKey_canon (n : Str) (t : FSNode) : treeKey (n, canon t) = treeKey (n, t) := by
  rw [treeKey, treeKey, canon_isDir]

theorem treeSortLe_canon (a b : Str × FSNode) :
    treeSortLe (a.1, canon a.2) (b.1, canon b.2) = treeSortLe a b := by
  rw [treeSortLe, treeSortLe, treeKey_canon, treeKey_canon]

theorem childrenKD_mem : ∀ {l : List (Str × FSNode)}, childrenKD l = true →
    ∀ e ∈ l, keysDistinct e.2 = true
  | [], _, e, h => absurd h (List.not_mem_nil e)
  | x :: rest, hw, e, h => by
    rw [childrenKD, Bool.and_eq_true] at hw
    rcases List.mem_cons.mp h with rfl | h
    · exact hw.1
    · exact childrenKD_mem hw.2 e h

theorem keysDistinct_dir {r : Bool} {ch : List (Str × FSNode)}
    (h : keysDistinct (.dir r ch) = true) :
    ((ch.filter fun e => !should_exclude_from_tree e.1 e.2.isDir).map treeKey).Nodup
      ∧ childrenKD ch = true := by
  rw [keysDistinct, Bool.and_eq_true] at h
  exact ⟨of_decide_eq_true h.1, h.2⟩

/-- Filtering and canonically reordering the children, then sorting by the
tree key, is the same as sorting the original children and canonicalising
each entry — provided the (filtered) sort keys are pairwise distinct. -/
theorem treeItems_canon (ch : List (Str × FSNode))
    (hkd : ((ch.filter fun e => !should_exclude_from_tree e.1 e.2.isDir).map treeKey).Nodup) :
    treeItems should_exclude_from_tree (sortByName (canonChildren ch))
      = (treeItems should_exclude_from_tree ch).map fun e => (e.1, canon e.2) := by
  unfold treeItems
  have heq2 : (canonChildren ch).filter
        (fun e => !should_exclude_from_tree e.1 e.2.isDir)
      = (ch.filter fun e => !should_exclude_from_tree e.1 e.2.isDir).map
          fun e => (e.1, canon e.2) := by
    rw [canonChildren_eq_map, List.filter_map]
    congr 1
    refine List.filter_congr ?_
    intro e _
    show (!should_exclude_from_tree e.1 (canon e.2).isDir)
      = (!should_exclude_from_tree e.1 e.2.isDir)
    rw [canon_isDir]
  have hperm : ((sortByName (canonChildren ch)).filter
        fun e => !should_exclude_from_tree e.1 e.2.isDir).Perm
      ((ch.filter fun e => !should_exclude_from_tree e.1 e.2.isDir).map
        fun e => (e.1, canon e.2)) := by
    refine (List.Perm.filter _ (List.perm_insertionSort _ _)).trans ?_
    rw [heq2]
  have hanti : ∀ a ∈ (sortByName (canonChildren ch)).filter
        (fun e => !should_exclude_from_tree e.1 e.2.isDir),
      ∀ b ∈ (sortByName (canonChildren ch)).filter
        (fun e => !should_exclude_from_tree e.1 e.2.isDir),
      treeSortLe a b = true → treeSortLe b a = true → a = b := by
    intro a ha b hb hab hba
    obtain ⟨x, hx, rfl⟩ := List.mem_map.mp (hperm.subset ha)
    obtain ⟨y, hy, rfl⟩ := List.mem_map.mp (hperm.subset hb)
    have hk1 : keyLt (treeKey (x.1, canon x.2)) (treeKey (y.1, canon y.2)) = false := by
      rw [treeSortLe, Bool.not_eq_true'] at hba
      exact hba
    have hk2 : keyLt (treeKey (y.1, canon y.2)) (treeKey (x.1, canon x.2)) = false := by
      rw [treeSortLe, Bool.not_eq_true'] at hab
      exact hab
    have hkeys : treeKey x = treeKey y := by
      rw [treeKey_canon, treeKey_canon] at hk1 hk2
      exact keyLt_connex hk1 hk2
    have hxy : x = y := List.inj_on_of_nodup_map hkd hx hy hkeys
    rw [hxy]
  rw [insertionSort_eq_of_perm_local hperm hanti]
  have hl : ∀ a ∈ (ch.filter fun e => !should_exclude_from_tree e.1 e.2.isDir),
      ∀ b ∈ (ch.filter fun e => !should_exclude_from_tree e.1 e.2.isDir),
      (treeSortLe a b = true) ↔
        (treeSortLe ((fun e => (e.1, canon e.2)) a) ((fun e => (e.1, canon e.2)) b) = true) := by
    intro a _ b _
    rw [show ((fun e => (e.1, canon e.2)) a) = (a.1, canon a.2) from rfl,
      show ((fun e => (e.1, canon e.2)) b) = (b.1, canon b.2) from rfl, treeSortLe_canon]
  exact (List.map_insertionSort _ _ _ _ hl).symm

mutual

theorem gtAux_canon : ∀ (d : Nat) (t : FSNode), keysDistinct t = true → ∀ (pre : Str),
    gtAux should_exclude_from_tree d (canon t) pre = gtAux should_exclude_from_tree d t pre
  | 0, t, _, _ => by cases t <;> rfl
  | _ + 1, .file _, _, _ => rfl
  | d + 1, .dir r ch, hkd, pre => by
    obtain ⟨hnodup, hckd⟩ := keysDistinct_dir hkd
    rw [canon, gtAux, gtAux, treeItems_canon ch hnodup]
    by_cases hr : r = true
    · rw [if_pos hr, if_pos hr]
      refine renderItems_gtAux_canon d (treeItems should_exclude_from_tree ch) ?_ pre
      intro e he
      refine childrenKD_mem hckd e ?_
      exact List.mem_of_mem_filter
        ((List.perm_insertionSort _ _).subset he)
    · rw [if_neg hr, if_neg hr]
termination_by d _ _ _ => (d, 0)

theorem renderItems_gtAux_canon : ∀ (d : Nat) (items : List (Str × FSNode)),
    (∀ e ∈ items, keysDistinct e.2 = true) → ∀ (pre : Str),
    renderItems (gtAux should_exclude_from_tree d) pre
        (items.map fun e => (e.1, canon e.2))
      = renderItems (gtAux should_exclude_from_tree d) pre items
  | _, [], _, _ => rfl
  | d, (n, t) :: rest, hall, pre => by
    rw [List.map_cons, renderItems, renderItems]
    have hie : (rest.map fun e => (e.1, canon e.2)).isEmpty = rest.isEmpty := by
      cases rest <;> rfl
    simp only [hie]
    rw [renderItems_gtAux_canon d rest (fun e he => hall e (List.mem_cons_of_mem _ he)) pre]
    have ht : keysDistinct t = true := hall (n, t) (List.mem_cons_self _ _)
    simp only [canon_isDir]
    by_cases hd : t.isDir = true
    · rw [hd]
      simp only [if_pos rfl]
      rw [gtAux_canon d t ht]
    · have hd2 : t.isDir = false := Bool.eq_false_iff.mpr hd
      rw [hd2]
      simp only [Bool.false_eq_true, if_false]
termination_by d items _ _ => (d, items.length + 1)

end

/-! ### Iteration-order invariance of content lookup and the whole report -/

theorem lookupNode_canon : ∀ (cs : List Str) (t : FSNode), wellFormed t = true →
    lookupNode (canon t) cs = Option.map canon (lookupNode t cs)
  | [], t, _ => by cases t <;> rfl
  | _ :: _, .file _, _ => rfl
  | c :: cs, .dir r ch, hwf => by
    obtain ⟨_, hnodup, hcw⟩ := wellFormed_dir hwf
    have hL : ∀ (l : List (Str × FSNode)) (rr : Bool), lookupNode (.dir rr l) (c :: cs)
        = match l.find? (fun e => e.1 == c) with
          | some e => lookupNode e.2 cs
          | none => none := fun l rr => rfl
    rw [canon, hL, hL]
    cases hf : ch.find? (fun e => e.1 == c) with
    | none =>
      have hnone : (sortByName (canonChildren ch)).find? (fun e => e.1 == c) = none := by
        rw [List.find?_eq_none] at hf ⊢
        intro x hx
        have hx2 : x ∈ canonChildren ch := (List.perm_insertionSort _ _).subset hx
        rw [canonChildren_eq_map] at hx2
        obtain ⟨y, hy, rfl⟩ := List.mem_map.mp hx2
        exact hf y hy
      rw [hnone]
      rfl
    | some e0 =>
      have he0m : e0 ∈ ch := List.mem_of_find?_eq_some hf
      have he0p := List.find?_some hf
      have hsome : (sortByName (canonChildren ch)).find? (fun e => e.1 == c)
          = some (e0.1, canon e0.2) := by
        have hmem : (e0.1, canon e0.2) ∈ sortByName (canonChildren ch) := by
          refine ((List.perm_insertionSort _ _).mem_iff).mpr ?_
          rw [canonChildren_eq_map]
          exact List.mem_map.mpr ⟨e0, he0m, rfl⟩
        cases hf2 : (sortByName (canonChildren ch)).find? (fun e => e.1 == c) with
        | none =>
          rw [List.find?_eq_none] at hf2
          exact absurd he0p (hf2 (e0.1, canon e0.2) hmem)
        | some x =>
          have hxm : x ∈ sortByName (canonChildren ch) := List.mem_of_find?_eq_some hf2
          have hxp := List.find?_some hf2
          have hx2 : x ∈ canonChildren ch := (List.perm_insertionSort _ _).subset hxm
          rw [canonChildren_eq_map] at hx2
          obtain ⟨y, hy, rfl⟩ := List.mem_map.mp hx2
          have hy1 : y.1 = c := by simpa using hxp
          have he01 : e0.1 = c := by simpa using he0p
          have hye : y = e0 := List.inj_on_of_nodup_map hnodup hy he0m (by rw [hy1, he01])
          rw [hye]
      rw [hsome]
      exact lookupNode_canon cs e0.2 (childrenWF_mem hcw e0 he0m)

theorem readAtPath_canon {t : FSNode} (hwf : wellFormed t = true) (p : Str) :
    readAtPath (canon t) p = readAtPath t p := by
  rw [readAtPath, readAtPath, lookupNode_canon (splitSlash p) t hwf]
  cases lookupNode t (splitSlash p) with
  | none => rfl
  | some x => cases x <;> rfl

/-- The generated report depends on the directory only through its canonical
(order-independent) form, provided names are well-formed and the
case-insensitive sort keys are collision-free. -/
theorem generate_markdown_canon (folder_name : Str) {t : FSNode}
    (hwf : wellFormed t = true) (hkd : keysDistinct t = true) :
    generate_markdown folder_name (canon t) = generate_markdown folder_name t := by
  simp only [generate_markdown]
  rw [find_files_to_include_canon]
  have htree : generate_tree should_exclude_from_tree (canon t) [] 10 0
      = generate_tree should_exclude_from_tree t [] 10 0 := by
    unfold generate_tree
    exact gtAux_canon _ t hkd []
  rw [htree]
  have hsec : (find_files_to_include t).map (fileSection (canon t))
      = (find_files_to_include t).map (fileSection t) := by
    refine List.map_congr_left ?_
    intro p _
    unfold fileSection
    rw [readAtPath_canon hwf]
  rw [hsec]

/-! ### Line structure of the timestamped document -/

/-- Split a string into its lines at newline characters. -/
def splitNl : Str → List Str
  | [] => [[]]
  | c :: cs =>
    match splitNl cs with
    | [] => [[]]
    | g :: gs => if c = '\n' then [] :: g :: gs else (c :: g) :: gs

theorem splitNl_ne_nil : ∀ s : Str, splitNl s ≠ []
  | [] => by simp [splitNl]
  | c :: cs => by
    rw [splitNl]
    cases h : splitNl cs with
    | nil => simp
    | cons g gs => by_cases hc : c = '\n' <;> simp [hc]

theorem splitNl_cons_nl (b : Str) : splitNl ('\n' :: b) = [] :: splitNl b := by
  rw [splitNl]
  cases h : splitNl b with
  | nil => exact absurd h (splitNl_ne_nil b)
  | cons g gs => simp

theorem splitNl_no_nl_append : ∀ (a b : Str), '\n' ∉ a →
    splitNl (a ++ '\n' :: b) = a :: splitNl b
  | [], b, _ => by
    rw [List.nil_append, splitNl_cons_nl]
  | c :: a, b, h => by
    have hc : ¬ (c = '\n') := fun hcc => h (hcc ▸ List.mem_cons_self c a)
    rw [List.cons_append, splitNl,
      splitNl_no_nl_append a b (fun hm => h (List.mem_cons_of_mem c hm))]
    simp [hc]

theorem splitNl_generate_documentation (ts : Str) (root : FSNode) (h : '\n' ∉ ts) :
    splitNl (generate_documentation ts root)
      = str "# Project Documentation" :: [] :: (str "Generated on: " ++ ts) :: []
          :: splitNl (processDirectory root []) := by
  have heq : generate_documentation ts root
      = str "# Project Documentation" ++ '\n'
          :: ('\n' :: ((str "Generated on: " ++ ts)
            ++ '\n' :: ('\n' :: processDirectory root []))) := by
    rw [generate_documentation,
      List.append_assoc (str "# Project Documentation\n\nGenerated on: " ++ ts)
        (str "\n\n") (processDirectory root []),
      List.append_assoc (str "# Project Documentation\n\nGenerated on: ") ts
        (str "\n\n" ++ processDirectory root [])]
    rfl
  have hgen : '\n' ∉ str "Generated on: " ++ ts := by
    intro hm
    rcases List.mem_append.mp hm with hm | hm
    · exact absurd hm (by decide)
    · exact h hm
  rw [heq, splitNl_no_nl_append _ _ (by decide), splitNl_cons_nl,
    splitNl_no_nl_append _ _ hgen, splitNl_cons_nl]

/-! ### Claim C9 -/

/-- C9 counterexample: two enumerations of the same directory contents (the
same canonical tree) — two sibling files whose names collide
case-insensitively — produce different `generate_markdown` output, because
the stable sort by `(not is_dir, name.lower())` keeps the enumeration order
of key-equal entries.  The report is therefore not independent of
filesystem iteration order as claimed. -/
theorem c9_iteration_order_counterexample :
    canon (.dir true [(str "A.txt", .file (.bytes [])), (str "a.txt", .file (.bytes []))])
      = canon (.dir true [(str "a.txt", .file (.bytes [])), (str "A.txt", .file (.bytes []))])
    ∧ generate_markdown (str "proj")
        (.dir true [(str "A.txt", .file (.bytes [])), (str "a.txt", .file (.bytes []))])
      ≠ generate_markdown (str "proj")
        (.dir true [(str "a.txt", .file (.bytes [])), (str "A.txt", .file (.bytes []))]) :=
  ⟨rfl, by decide⟩

/-- C9 (amended): rerunning on unchanged input is byte-identical (the
report is a pure function of the enumerated tree); the `generate_markdown`
report is a function of the directory contents alone — independent of
filesystem iteration order — provided no two non-excluded siblings share
the `(not is_dir, name.lower())` sort key; and the timestamped
`generate_documentation` variant yields, for any two timestamps, documents
that are line-for-line identical except for the single timestamp line
(index 2). -/
theorem c9_report_order_independent_amended :
    (∀ (folder_name : Str) (t1 t2 : FSNode),
        wellFormed t1 = true → wellFormed t2 = true →
        keysDistinct t1 = true → keysDistinct t2 = true →
        canon t1 = canon t2 →
        generate_markdown folder_name t1 = generate_markdown folder_name t2)
    ∧ (∀ (ts1 ts2 : Str) (root : FSNode), '\n' ∉ ts1 → '\n' ∉ ts2 →
        (splitNl (generate_documentation ts1 root)).length
          = (splitNl (generate_documentation ts2 root)).length
        ∧ ∀ i : Nat, i ≠ 2 →
            (splitNl (generate_documentation ts1 root)).get? i
              = (splitNl (generate_documentation ts2 root)).get? i) := by
  constructor
  · intro n t1 t2 h1 h2 k1 k2 hc
    rw [← generate_markdown_canon n h1 k1, hc, generate_markdown_canon n h2 k2]
  · intro ts1 ts2 root h1 h2
    rw [splitNl_generate_documentation ts1 root h1,
      splitNl_generate_documentation ts2 root h2]
    refine ⟨by simp, ?_⟩
    intro i hi
    cases i with
    | zero => rfl
    | succ i => cases i with
      | zero => rfl
      | succ i => cases i with
        | zero => exact absurd rfl hi
        | succ i => rfl

/-- Sample trees for the C9 witness: the same two files enumerated in the
two possible orders, with distinct case-insensitive sort keys. -/
def sampleT1 : FSNode :=
  .dir true [(str "b.txt", .file (.bytes [])), (str "A.txt", .file (.bytes []))]

/-- The same directory as `sampleT1`, enumerated in the other order. -/
def sampleT2 : FSNode :=
  .dir true [(str "A.txt", .file (.bytes [])), (str "b.txt", .file (.bytes []))]

/-- Witness for C9 (amended) at concrete trees and timestamps. -/
theorem c9_report_order_independent_amended_witness :
    wellFormed sampleT1 = true ∧ wellFormed sampleT2 = true
    ∧ keysDistinct sampleT1 = true ∧ keysDistinct sampleT2 = true
    ∧ canon sampleT1 = canon sampleT2
    ∧ generate_markdown (str "proj") sampleT1 = generate_markdown (str "proj") sampleT2
    ∧ (splitNl (generate_documentation (str "2024-01-01") (.dir true []))).get? 0
        = (splitNl (generate_documentation (str "2025-12-31") (.dir true []))).get? 0 :=
  ⟨by decide, by decide, by decide, by decide, rfl,
   c9_report_order_independent_amended.1 (str "proj") sampleT1 sampleT2
     (by decide) (by decide) (by decide) (by decide) rfl,
   (c9_report_order_independent_amended.2 (str "2024-01-01") (str "2025-12-31")
     (.dir true []) (by decide) (by decide)).2 0 (by decide)⟩

end VibeCoding
